import Mathlib

/-!
Verification of the process-IPC bridge in `src/client/src-tauri/src/lib.rs`
(the narrarc client host).

The bridge exchanges newline-delimited JSON with a supervised worker process:
`backend_request` performs one synchronous request/response round trip, and
`backend_query_stream` writes one streaming request and then reads stdout line
by line, forwarding `progress` envelopes to the frontend event bus and
finishing on the first `result` or `error` envelope.

The Rust code manipulates `serde_json::Value`.  That library is not part of
this repository, so the JSON data model and codec below are modelled from the
spec (section 4.2, Transport Codec): serialization to a single compact JSON
line, and decoding by trimming surrounding whitespace and parsing JSON.
Model boundaries, stated once here:
  - JSON numbers are modelled as integers (`Int`); float-valued numbers
    (fraction or exponent parts, which serde stores as `f64`) are outside the
    model, and the modelled parser rejects them.
  - objects are modelled as their ordered key/value list; equality on the
    list refines the logical (map) equality of `serde_json::Value`, and field
    lookup takes the last binding for a key, as `serde_json` does when
    duplicate keys occur in one document.
  - `serde` error strings are abstracted to a fixed message prefix; the code
    under verification never branches on their text.
-/

/-- A JSON document, mirroring the shape of `serde_json::Value` with the
number and object boundaries described in the header comment. -/
inductive JVal where
  | jnull : JVal
  | jbool : Bool → JVal
  | jnum : Int → JVal
  | jstr : String → JVal
  | jarr : List JVal → JVal
  | jobj : List (String × JVal) → JVal

namespace JVal

/-- Field access on an object, as `serde_json::Value::get(key)`: `none` on any
non-object, and the last binding wins when a key is duplicated (matching what
`serde_json` keeps when parsing duplicate keys). -/
def get : JVal → String → Option JVal
  | .jobj kvs, k => lookLast kvs k
  | _, _ => none
where
  lookLast : List (String × JVal) → String → Option JVal
    | [], _ => none
    | (k0, v0) :: rest, k =>
      match lookLast rest k with
      | some r => some r
      | none => if k0 = k then some v0 else none

/-- String extraction, as `serde_json::Value::as_str`. -/
def asStr : JVal → Option String
  | .jstr s => some s
  | _ => none

end JVal

/-! ## Serialization (`serde_json::to_string`, modelled from the spec) -/

/-- Decimal digit emitter, structurally recursive on a fuel bound so that it
reduces inside the kernel; `decRepr` instantiates the fuel adequately. -/
def decReprAux : Nat → Nat → List Char
  | 0, _ => []
  | f + 1, n =>
    if n < 10 then [Nat.digitChar n]
    else decReprAux f (n / 10) ++ [Nat.digitChar (n % 10)]

/-- Decimal digit characters of a natural number, most significant first. -/
def decRepr (n : Nat) : List Char := decReprAux (n + 1) n

/-- The fuel argument of `decReprAux` is irrelevant once it exceeds the input. -/
theorem decReprAux_fuel : ∀ n f g, n < f → n < g → decReprAux f n = decReprAux g n := by
  intro n
  induction n using Nat.strong_induction_on with
  | _ n ih =>
    intro f g hf hg
    match f, g with
    | f' + 1, g' + 1 =>
      by_cases h10 : n < 10
      · simp [decReprAux, h10]
      · have hlt : n / 10 < n := Nat.div_lt_self (by omega) (by omega)
        simp only [decReprAux, if_neg h10]
        rw [ih (n / 10) hlt f' g' (by omega) (by omega)]

/-- One-step unfolding of `decRepr` in terms of itself. -/
theorem decRepr_unfold (n : Nat) :
    decRepr n = if n < 10 then [Nat.digitChar n]
      else decRepr (n / 10) ++ [Nat.digitChar (n % 10)] := by
  by_cases h10 : n < 10
  · simp [decRepr, decReprAux, h10]
  · have hlt : n / 10 < n := Nat.div_lt_self (by omega) (by omega)
    have hstep : decRepr n = decReprAux n (n / 10) ++ [Nat.digitChar (n % 10)] := by
      simp [decRepr, decReprAux, h10]
    rw [hstep, decReprAux_fuel (n / 10) n (n / 10 + 1) hlt (by omega), if_neg h10]
    rfl

/-- Characters of an integer: a minus sign for negatives, then digits. -/
def intRepr (i : Int) : List Char :=
  if i < 0 then '-' :: decRepr i.natAbs else decRepr i.toNat

/-- JSON escape sequence of one character inside a string literal: quote,
backslash and the control shorthands get two-character escapes, remaining
control characters get a `\u00XX` escape, everything else stands for itself. -/
def escCh (c : Char) : List Char :=
  if c = '"' then ['\\', '"']
  else if c = '\\' then ['\\', '\\']
  else if c = '\n' then ['\\', 'n']
  else if c = '\t' then ['\\', 't']
  else if c = '\r' then ['\\', 'r']
  else if c = '\x08' then ['\\', 'b']
  else if c = '\x0c' then ['\\', 'f']
  else if c.toNat < 32 then
    ['\\', 'u', '0', '0', Nat.digitChar (c.toNat / 16), Nat.digitChar (c.toNat % 16)]
  else [c]

/-- Escaped body of a string literal. -/
def escBody (cs : List Char) : List Char :=
  cs.foldr (fun c acc => escCh c ++ acc) []

/-- Characters of a quoted, escaped JSON string literal. -/
def quoteStr (s : String) : List Char := '"' :: escBody s.data ++ ['"']

mutual

/-- Characters of the compact serialization of a value. -/
def renderJ : JVal → List Char
  | .jnull => "null".data
  | .jbool true => "true".data
  | .jbool false => "false".data
  | .jnum i => intRepr i
  | .jstr s => quoteStr s
  | .jarr xs => '[' :: renderItems xs ++ [']']
  | .jobj kvs => '\x7b' :: renderMems kvs ++ ['\x7d']

/-- Comma-separated serializations of array elements. -/
def renderItems : List JVal → List Char
  | [] => []
  | [x] => renderJ x
  | x :: y :: rest => renderJ x ++ ',' :: renderItems (y :: rest)

/-- Comma-separated serializations of object members. -/
def renderMems : List (String × JVal) → List Char
  | [] => []
  | [kv] => quoteStr kv.1 ++ ':' :: renderJ kv.2
  | kv :: kv2 :: rest => (quoteStr kv.1 ++ ':' :: renderJ kv.2) ++ ',' :: renderMems (kv2 :: rest)

end

/-- Spec 4.2 `encodeRequest`, body part: `serde_json::to_string(&payload)`.
Total on the modelled value space (`serde_json::to_string` on a `Value`
cannot fail there). -/
def encodeRequest (v : JVal) : String := String.mk (renderJ v)

/-- The single wire line written by `writeln!(stdin, "...", request)`:
the serialized request followed by exactly one newline. -/
def requestWireLine (v : JVal) : String := String.mk (renderJ v ++ ['\n'])

example : encodeRequest (.jobj [("cmd", .jstr "query"), ("stream", .jbool true)])
    = "\x7b\"cmd\":\"query\",\"stream\":true\x7d" := rfl

example : encodeRequest (.jarr [.jnum (-12), .jnull, .jstr "a\nb"])
    = "[-12,null,\"a\\nb\"]" := rfl

/-! ## Parsing (`serde_json::from_str::<Value>`, modelled from the spec) -/

/-- JSON insignificant whitespace (RFC 8259: space, tab, line feed, carriage
return); also the characters `str::trim` strips on the lines at hand. -/
def jws (c : Char) : Bool := c = ' ' || c = '\t' || c = '\n' || c = '\r'

/-- Drop leading insignificant whitespace. -/
def dropWs : List Char → List Char
  | [] => []
  | c :: cs => if jws c then dropWs cs else c :: cs

/-- Rust `str::trim` on the character list: strip whitespace from both ends. -/
def trimChars (cs : List Char) : List Char := ((dropWs cs).reverse.dropWhile jws).reverse

/-- Numeric value of one hexadecimal digit character. -/
def hexDigVal (c : Char) : Option Nat :=
  if c.isDigit then some (c.toNat - 48)
  else if 'a' ≤ c && c ≤ 'f' then some (c.toNat - 87)
  else if 'A' ≤ c && c ≤ 'F' then some (c.toNat - 55)
  else none

/-- Four hexadecimal digits after a `\u` escape introducer, as a scalar
value and the remainder. -/
def pHex4 : List Char → Option (Nat × List Char)
  | h1 :: h2 :: h3 :: h4 :: rest =>
    match hexDigVal h1, hexDigVal h2, hexDigVal h3, hexDigVal h4 with
    | some a, some b, some m, some d => some (((a * 16 + b) * 16 + m) * 16 + d, rest)
    | _, _, _, _ => none
  | _ => none

/-- The character denoted by a two-character escape sequence. -/
def escDecode (e : Char) : Option Char :=
  if e = '"' then some '"'
  else if e = '\\' then some '\\'
  else if e = '/' then some '/'
  else if e = 'n' then some '\n'
  else if e = 't' then some '\t'
  else if e = 'r' then some '\r'
  else if e = 'b' then some '\x08'
  else if e = 'f' then some '\x0c'
  else none

/-- Body of a string literal after the opening quote: plain characters up to
the closing quote, two-character escapes, and `\uXXXX` escapes restricted to
scalar values (no surrogate-pair recombination; the serializer never emits
surrogates).  Unescaped control characters are rejected, as in RFC 8259.
The fuel argument strictly exceeds the number of encoded characters consumed;
every caller instantiates it amply. -/
def pStrT : Nat → List Char → Option (List Char × List Char)
  | 0, _ => none
  | f + 1, cs =>
    match cs with
    | [] => none
    | c :: rest =>
      if c = '"' then some ([], rest)
      else if c = '\\' then
        match rest with
        | [] => none
        | e :: rest2 =>
          if e = 'u' then
            match pHex4 rest2 with
            | some nr =>
              if nr.1.isValidChar then
                (pStrT f nr.2).map fun pr => (Char.ofNat nr.1 :: pr.1, pr.2)
              else none
            | none => none
          else
            match escDecode e with
            | some d => (pStrT f rest2).map fun pr => (d :: pr.1, pr.2)
            | none => none
      else if c.toNat < 32 then none
      else (pStrT f rest).map fun pr => (c :: pr.1, pr.2)

/-- A digit run and the remainder after it. -/
def grabDigits (cs : List Char) : List Char × List Char :=
  (cs.takeWhile Char.isDigit, cs.dropWhile Char.isDigit)

/-- Numeric value of a digit run, most significant first. -/
def digitsVal (ds : List Char) : Nat :=
  ds.foldl (fun acc c => 10 * acc + (c.toNat - 48)) 0

/-- An unsigned integer token: a nonempty digit run without a redundant
leading zero, not followed by a fraction or exponent part (fractions and
exponents denote floats, which are outside the model; see the header). -/
def pNatTok (cs : List Char) : Option (Nat × List Char) :=
  let ds := (grabDigits cs).1
  let rest := (grabDigits cs).2
  if ds.isEmpty then none
  else if 1 < ds.length && ds.head? = some '0' then none
  else
    match rest with
    | [] => some (digitsVal ds, rest)
    | c :: _ => if c = '.' || c = 'e' || c = 'E' then none else some (digitsVal ds, rest)

/-- A number token, with an optional leading minus sign. -/
def pNum (cs : List Char) : Option (JVal × List Char) :=
  match cs with
  | [] => none
  | c :: rest =>
    if c = '-' then (pNatTok rest).map fun pr => (.jnum (-(pr.1 : Int)), pr.2)
    else (pNatTok (c :: rest)).map fun pr => (.jnum (pr.1 : Int), pr.2)

mutual

/-- One JSON value at the head of the input.  Fuel strictly exceeds the
number of values still to be parsed, so the instantiation in `parseDoc`
(twice the input length) can never be exhausted on inputs it accepts. -/
def pVal : Nat → List Char → Option (JVal × List Char)
  | 0, _ => none
  | f + 1, cs =>
    match cs with
    | [] => none
    | c :: rest =>
      if c = '-' || c.isDigit then pNum cs
      else if c = '"' then (pStrT f rest).map fun pr => (.jstr (String.mk pr.1), pr.2)
      else if c = '[' then
        match dropWs rest with
        | [] => none
        | c2 :: rest2 =>
          if c2 = ']' then some (.jarr [], rest2)
          else (pItems f (c2 :: rest2)).map fun pr => (.jarr pr.1, pr.2)
      else if c = '\x7b' then
        match dropWs rest with
        | [] => none
        | c2 :: rest2 =>
          if c2 = '\x7d' then some (.jobj [], rest2)
          else (pMems f (c2 :: rest2)).map fun pr => (.jobj pr.1, pr.2)
      else if c = 'n' then
        match rest with
        | 'u' :: 'l' :: 'l' :: r => some (.jnull, r)
        | _ => none
      else if c = 't' then
        match rest with
        | 'r' :: 'u' :: 'e' :: r => some (.jbool true, r)
        | _ => none
      else if c = 'f' then
        match rest with
        | 'a' :: 'l' :: 's' :: 'e' :: r => some (.jbool false, r)
        | _ => none
      else none

/-- One or more comma-separated array elements up to the closing bracket:
one element, then hand the remainder to `pItemsSep`. -/
def pItems : Nat → List Char → Option (List JVal × List Char)
  | 0, _ => none
  | f + 1, cs => (pVal f cs).bind fun pr => pItemsSep f pr.1 (dropWs pr.2)

/-- After one array element: a comma continues the element list, a closing
bracket ends it. -/
def pItemsSep : Nat → JVal → List Char → Option (List JVal × List Char)
  | 0, _, _ => none
  | f + 1, v, cs =>
    match cs with
    | [] => none
    | c :: rest =>
      if c = ',' then (pItems f (dropWs rest)).map fun qr => (v :: qr.1, qr.2)
      else if c = ']' then some ([v], rest)
      else none

/-- One or more comma-separated object members up to the closing brace:
a quoted key, then the remainder through `pMemSep1`. -/
def pMems : Nat → List Char → Option (List (String × JVal) × List Char)
  | 0, _ => none
  | f + 1, cs =>
    match cs with
    | [] => none
    | c :: rest =>
      if c = '"' then
        (pStrT f rest).bind fun kr => pMemSep1 f (String.mk kr.1) (dropWs kr.2)
      else none

/-- After an object key: a colon, then the member value. -/
def pMemSep1 : Nat → String → List Char → Option (List (String × JVal) × List Char)
  | 0, _, _ => none
  | f + 1, k, cs =>
    match cs with
    | [] => none
    | c :: rest =>
      if c = ':' then (pVal f (dropWs rest)).bind fun vr => pMemSep2 f k vr.1 (dropWs vr.2)
      else none

/-- After one object member: a comma continues the member list, a closing
brace ends it. -/
def pMemSep2 : Nat → String → JVal → List Char → Option (List (String × JVal) × List Char)
  | 0, _, _, _ => none
  | f + 1, k, v, cs =>
    match cs with
    | [] => none
    | c :: rest =>
      if c = ',' then (pMems f (dropWs rest)).map fun mr => ((k, v) :: mr.1, mr.2)
      else if c = '\x7d' then some ([(k, v)], rest)
      else none

end

/-- A whole JSON document over characters: one value, then only whitespace. -/
def parseDoc (cs : List Char) : Option JVal :=
  match pVal (2 * cs.length + 2) (dropWs cs) with
  | some pr => if dropWs pr.2 = [] then some pr.1 else none
  | none => none

/-- Spec 4.2 `decodeResponse`, and both `serde_json::from_str(line.trim())`
call sites in the Rust code: trim surrounding whitespace, then parse the line
as one JSON document. -/
def decodeResponse (line : String) : Option JVal := parseDoc (trimChars line.data)

example : decodeResponse " \x7b\"type\":\"progress\",\"step\":3\x7d \n"
    = some (.jobj [("type", .jstr "progress"), ("step", .jnum 3)]) := rfl

example : decodeResponse "not json" = none := rfl

example : decodeResponse "" = none := rfl

example : decodeResponse "[1,[true,\"x\"],\x7b\x7d]"
    = some (.jarr [.jnum 1, .jarr [.jbool true, .jstr "x"], .jobj []]) := rfl

example : decodeResponse "\"a\\u0007b\"" = some (.jstr (String.mk ['a', '\x07', 'b'])) := rfl

example : decodeResponse "1.5" = none := rfl

/-! ## The synchronous request channel (`backend_request`, lib.rs 262-300)

The Tauri plumbing (state extraction, `spawn_blocking`, join errors) and the
early failure paths before any byte is exchanged (poisoned lock, missing
stdin/stdout handles, write failures) are outside the model: the model is the
function from the one response line read back to the value of the call, plus
the wire line written for the request.  A zero-length read leaves the `line`
buffer empty, so end of stream enters the model as the empty string. -/

/-- Message used when the response line is not valid JSON.  The Rust code
formats `"backend invalid JSON: e"` with the serde error `e`; the detail text
is abstracted (header comment), the code never branches on it. -/
def invalidJsonMsg : String := "backend invalid JSON"

/-- The `type` discriminator of an envelope, when it is a string:
`value.get("type").and_then(t.as_str())`. -/
def typeField (v : JVal) : Option String := (v.get "type").bind JVal.asStr

/-- The failure message taken from an `error` envelope in `backend_request`:
`value.get("message").and_then(m.as_str()).unwrap_or("unknown error")`. -/
def errMessageOf (v : JVal) : String :=
  ((v.get "message").bind JVal.asStr).getD "unknown error"

/-- Classification of a decoded synchronous response (lib.rs 290-298): an
`error`-typed envelope fails the call with its message, anything else is
returned unchanged. -/
def classifyResponse (value : JVal) : Except String JVal :=
  match typeField value with
  | some t => if t = "error" then .error (errMessageOf value) else .ok value
  | none => .ok value

/-- Lines 288-299 of lib.rs: decode the response line (trim, JSON-parse),
fail on an `error`-typed envelope with its message, return any other decoded
envelope unchanged. -/
def backendRequestOutcome (line : String) : Except String JVal :=
  match decodeResponse line with
  | none => .error invalidJsonMsg
  | some value => classifyResponse value

/-- The whole modelled synchronous call `backend_request(payload)` against a
worker whose single response line is `responseLine`: the wire line written to
worker stdin, and the value the call returns. -/
def backend_request (payload : JVal) (responseLine : String) :
    String × Except String JVal :=
  (requestWireLine payload, backendRequestOutcome responseLine)

example : backendRequestOutcome "\x7b\"type\":\"error\",\"message\":\"bad talker\"\x7d"
    = .error "bad talker" := rfl

example : backendRequestOutcome "\x7b\"type\":\"error\"\x7d" = .error "unknown error" := rfl

example : backendRequestOutcome "\x7b\"ok\":true\x7d"
    = .ok (.jobj [("ok", .jbool true)]) := rfl

example : backendRequestOutcome "" = .error invalidJsonMsg := rfl

/-! ## The streaming query engine (`backend_query_stream`, lib.rs 304-413)

The call runs two tasks joined by a lossless FIFO channel: a blocking reader
that reads worker stdout line by line, sends every line it reads into the
channel and stops after sending the first line that decodes to a `result` or
`error` envelope (or at end of stream), and a receiver that trims each
received line, skips blank and undecodable ones, emits each `progress`
envelope to the frontend, and records the first terminal envelope in the
result cell or the error cell before breaking.  Both tasks test a line with
the same trim-and-decode, channel order is read order, the channel capacity
only bounds buffering (`blocking_send` waits, nothing is dropped), and the
caller awaits the receiver before looking at the cells, so the composition is
the sequential function below of the list of lines the worker writes before
closing stdout. -/

/-- The reader task stop test (lib.rs 382-389): the trimmed line is nonempty
and decodes to an envelope whose `type` is `result` or `error`. -/
def isTerminalLine (line : String) : Bool :=
  !(trimChars line.data).isEmpty &&
    match parseDoc (trimChars line.data) with
    | some v => typeField v = some "result" || typeField v = some "error"
    | none => false

/-- Lines the reader sends into the channel (lib.rs 377-394): every line up
to and including the first terminal one. -/
def sentLines : List String → List String
  | [] => []
  | l :: ls => l :: (if isTerminalLine l then [] else sentLines ls)

/-- The receiver state: progress envelopes emitted so far (in order), the
`result_cell` and the `error_cell` of lib.rs 324-325.  As in the Rust code
the error cell holds `message.as_str().map(to_string)`: an `error` envelope
without a string message leaves it `none`. -/
structure StreamState where
  emitted : List JVal
  result_cell : Option JVal
  error_cell : Option String

/-- Routing of one decoded envelope by its `type` tag (lib.rs 337-357):
`progress` is emitted, `result` and `error` fill their cell and break,
anything else is ignored. -/
def recvEnvelope (s : StreamState) (v : JVal) : StreamState × Bool :=
  match typeField v with
  | some ty =>
    if ty = "progress" then ({ s with emitted := s.emitted ++ [v] }, false)
    else if ty = "result" then ({ s with result_cell := some v }, true)
    else if ty = "error" then
      ({ s with error_cell := (v.get "message").bind JVal.asStr }, true)
    else (s, false)
  | none => (s, false)

/-- The receiver loop body for one line (lib.rs 331-358), with the `break`
decision as second component. -/
def recvStep (s : StreamState) (line : String) : StreamState × Bool :=
  let t := trimChars line.data
  if t.isEmpty then (s, false)
  else
    match parseDoc t with
    | none => (s, false)
    | some v => recvEnvelope s v

/-- The receiver loop: process channel lines in order until a break or until
the channel closes. -/
def recvLoop : List String → StreamState → StreamState
  | [], s => s
  | l :: ls, s =>
    match recvStep s l with
    | (s2, true) => s2
    | (s2, false) => recvLoop ls s2

/-- Final receiver state of a streaming call whose worker writes `lines` and
then closes stdout. -/
def streamFinal (lines : List String) : StreamState :=
  recvLoop (sentLines lines) ⟨[], none, none⟩

/-- Message of the failure when the stream ends with no result captured. -/
def noResultMsg : String := "backend stream did not return result"

/-- The value returned by `backend_query_stream` (lib.rs 402-412): a message
in the error cell fails the call, otherwise a captured result envelope is
returned, otherwise the call fails with the no-result message. -/
def backend_query_stream (lines : List String) : List JVal × Except String JVal :=
  let s := streamFinal lines
  (s.emitted,
    match s.error_cell with
    | some msg => .error msg
    | none =>
      match s.result_cell with
      | some v => .ok v
      | none => .error noResultMsg)

/-- One observable event of a streaming call. -/
inductive StreamEvent where
  | progress : JVal → StreamEvent
  | ret : Except String JVal → StreamEvent

/-- The temporal trace of one streaming call.  The progress emissions happen
inside the receiver loop, in channel order, and the call returns only after
`recv_handle.await` completes (lib.rs 401), so every emission precedes the
return event and nothing follows it. -/
def streamTrace (lines : List String) : List StreamEvent :=
  (backend_query_stream lines).1.map .progress ++ [.ret (backend_query_stream lines).2]

example : backend_query_stream
      ["\x7b\"type\":\"progress\",\"n\":1\x7d", "\x7b\"type\":\"result\",\"a\":2\x7d"]
    = ([.jobj [("type", .jstr "progress"), ("n", .jnum 1)]],
       .ok (.jobj [("type", .jstr "result"), ("a", .jnum 2)])) := rfl

example : backend_query_stream ["junk", "\x7b\"type\":\"error\",\"message\":\"boom\"\x7d"]
    = ([], .error "boom") := rfl

example : backend_query_stream ["\x7b\"type\":\"error\"\x7d"] = ([], .error noResultMsg) := rfl

example : backend_query_stream [] = ([], .error noResultMsg) := rfl

/-! ## Shutdown and the exchange lock (lib.rs 262-287 and 427-435)

`BackendProcess` (child handle, stdin, stdout) lives entirely inside one
`Arc<Mutex<..>>`.  The close-requested handler runs
`state.inner().lock()` and only then `guard.child.kill()`; `backend_request`
holds the same lock across its write and its blocking `read_line`.  Each
routine is embedded as the sequence of lock and stream operations it
performs, and the race between a blocked synchronous call and the close
handler as a small enabled-transition state. -/

/-- Atomic operations on the shared `Mutex<BackendProcess>` and its streams. -/
inductive BridgeOp where
  | lockAcquire : BridgeOp
  | writeRequestLine : BridgeOp
  | readResponseLine : BridgeOp
  | killChild : BridgeOp
  | lockRelease : BridgeOp
deriving DecidableEq, Repr

/-- The close-requested handler (lib.rs 427-435): acquire the mutex guarding
`BackendProcess`, kill the child through the guard, release at scope end. -/
def closeHandlerOps : List BridgeOp := [.lockAcquire, .killChild, .lockRelease]

/-- The blocking section of `backend_request` (lib.rs 269-285): acquire the
mutex, write the request line, block reading the response line, release. -/
def backendRequestOps : List BridgeOp :=
  [.lockAcquire, .writeRequestLine, .readResponseLine, .lockRelease]

/-- The race state once a synchronous call holds the lock and is blocked in
`read_line` while close is requested: whether the request task holds the
mutex, whether the worker has written a line, whether the child was killed. -/
structure ShutdownRace where
  requestHoldsLock : Bool
  workerWroteLine : Bool
  childKilled : Bool

/-- The close handler can make progress only by acquiring the mutex. -/
def closeCanProceed (s : ShutdownRace) : Bool := !s.requestHoldsLock

/-- The blocked `read_line` can return only when the worker writes a line or
its pipe is closed by the child being killed. -/
def readCanReturn (s : ShutdownRace) : Bool := s.workerWroteLine || s.childKilled

/-- The race state under test: request in flight and blocked reading, worker
silent, child alive. -/
def blockedExchangeState : ShutdownRace :=
  { requestHoldsLock := true, workerWroteLine := false, childKilled := false }

/-! ## Round-trip of the codec: digit-level lemmas -/

theorem digitChar_isDigit {m : Nat} (h : m < 10) : (Nat.digitChar m).isDigit = true := by
  interval_cases m <;> decide

theorem digitChar_toNat {m : Nat} (h : m < 10) : (Nat.digitChar m).toNat = 48 + m := by
  interval_cases m <;> decide

theorem digitChar_ne_zero {m : Nat} (h : m < 10) (h0 : m ≠ 0) : Nat.digitChar m ≠ '0' := by
  interval_cases m <;> simp_all <;> decide

theorem hexDigVal_digitChar {m : Nat} (h : m < 16) : hexDigVal (Nat.digitChar m) = some m := by
  interval_cases m <;> decide

theorem decRepr_ne_nil (n : Nat) : decRepr n ≠ [] := by
  rw [decRepr_unfold]
  by_cases h10 : n < 10 <;> simp [h10]

theorem decRepr_digits (n : Nat) : ∀ c ∈ decRepr n, c.isDigit = true := by
  induction n using Nat.strong_induction_on with
  | _ n ih =>
    rw [decRepr_unfold]
    by_cases h10 : n < 10
    · simp only [if_pos h10, List.mem_singleton]
      rintro c rfl
      exact digitChar_isDigit h10
    · simp only [if_neg h10, List.mem_append, List.mem_singleton]
      rintro c (hc | rfl)
      · exact ih (n / 10) (Nat.div_lt_self (by omega) (by omega)) c hc
      · exact digitChar_isDigit (Nat.mod_lt _ (by omega))

theorem decRepr_head_ne_zero (n : Nat) (h0 : n ≠ 0) :
    ∀ c, (decRepr n).head? = some c → c ≠ '0' := by
  induction n using Nat.strong_induction_on with
  | _ n ih =>
    rw [decRepr_unfold]
    by_cases h10 : n < 10
    · simp only [if_pos h10, List.head?_cons, Option.some.injEq]
      rintro c rfl
      exact digitChar_ne_zero h10 h0
    · simp only [if_neg h10]
      intro c hc
      have hne := decRepr_ne_nil (n / 10)
      obtain ⟨d, ds, hd⟩ : ∃ d ds, decRepr (n / 10) = d :: ds := by
        cases hdd : decRepr (n / 10) with
        | nil => exact absurd hdd hne
        | cons a l => exact ⟨a, l, rfl⟩
      rw [hd, List.cons_append, List.head?_cons] at hc
      have hd2 : (decRepr (n / 10)).head? = some d := by rw [hd]; rfl
      injection hc with hdc
      subst hdc
      exact ih (n / 10) (Nat.div_lt_self (by omega) (by omega)) (by omega) _ hd2

theorem digitsVal_append (ds : List Char) (d : Char) :
    digitsVal (ds ++ [d]) = 10 * digitsVal ds + (d.toNat - 48) := by
  simp [digitsVal, List.foldl_append]

theorem digitsVal_decRepr (n : Nat) : digitsVal (decRepr n) = n := by
  induction n using Nat.strong_induction_on with
  | _ n ih =>
    rw [decRepr_unfold]
    by_cases h10 : n < 10
    · simp only [if_pos h10]
      simp [digitsVal, digitChar_toNat h10]
    · simp only [if_neg h10, digitsVal_append]
      rw [ih (n / 10) (Nat.div_lt_self (by omega) (by omega))]
      rw [digitChar_toNat (Nat.mod_lt _ (by omega))]
      omega

/-! ## Round-trip of the codec: token-level lemmas -/

/-- Characters that may legitimately follow a complete serialized value
inside a document: end of input, an element separator, or a closer. -/
def jBoundary : List Char → Bool
  | [] => true
  | c :: _ => c = ',' || c = ']' || c = '\x7d'

theorem jBoundary_head {c : Char} {t : List Char} (hb : jBoundary (c :: t) = true) :
    c.isDigit = false ∧ c ≠ '.' ∧ c ≠ 'e' ∧ c ≠ 'E' := by
  have hc : (c = ',' ∨ c = ']') ∨ c = '\x7d' := by
    simpa [jBoundary] using hb
  rcases hc with (rfl | rfl) | rfl <;> refine ⟨by decide, by decide, by decide, by decide⟩

theorem digit_ne_minus {c : Char} (h : c.isDigit = true) : c ≠ '-' := by
  rintro rfl; exact absurd h (by decide)

theorem grabDigits_exact (ds rest : List Char) (hds : ∀ c ∈ ds, c.isDigit = true)
    (hrest : ∀ c, rest.head? = some c → c.isDigit = false) :
    grabDigits (ds ++ rest) = (ds, rest) := by
  induction ds with
  | nil =>
    simp only [List.nil_append, grabDigits]
    cases rest with
    | nil => rfl
    | cons c t =>
      have hc := hrest c rfl
      simp [List.takeWhile_cons, List.dropWhile_cons, hc]
  | cons d ds ih =>
    have hd := hds d (by simp)
    have ih2 := ih (fun c hc => hds c (by simp [hc]))
    simp only [grabDigits, Prod.mk.injEq] at ih2
    simp only [grabDigits, List.cons_append, List.takeWhile_cons, List.dropWhile_cons, hd,
      if_pos, Prod.mk.injEq]
    exact ⟨by rw [ih2.1], by rw [ih2.2]⟩

theorem pNatTok_decRepr (n : Nat) (rest : List Char) (hb : jBoundary rest = true) :
    pNatTok (decRepr n ++ rest) = some (n, rest) := by
  have hrest : ∀ c, rest.head? = some c → c.isDigit = false := by
    intro c hc
    cases rest with
    | nil => exact absurd hc (by simp)
    | cons r t =>
      injection hc with hrc
      subst hrc
      exact (jBoundary_head hb).1
  have hg := grabDigits_exact (decRepr n) rest (decRepr_digits n) hrest
  have hnonempty : (decRepr n).isEmpty = false := by
    cases hdd : decRepr n with
    | nil => exact absurd hdd (decRepr_ne_nil n)
    | cons a l => rfl
  have hlz : (1 < (decRepr n).length && (decRepr n).head? = some '0') = false := by
    by_cases h0 : n = 0
    · subst h0; decide
    · obtain ⟨d, ds, hd⟩ : ∃ d ds, decRepr n = d :: ds := by
        cases hdd : decRepr n with
        | nil => exact absurd hdd (decRepr_ne_nil n)
        | cons a l => exact ⟨a, l, rfl⟩
      have hdz : d ≠ '0' := decRepr_head_ne_zero n h0 d (by rw [hd]; rfl)
      rw [hd]
      simp [hdz]
  rw [pNatTok, hg]
  simp only [hnonempty, Bool.false_eq_true, if_false, hlz]
  cases rest with
  | nil => simp [digitsVal_decRepr]
  | cons r t =>
    obtain ⟨_, hdot, he, hE⟩ := jBoundary_head hb
    simp [hdot, he, hE, digitsVal_decRepr]

theorem pNum_intRepr (i : Int) (rest : List Char) (hb : jBoundary rest = true) :
    pNum (intRepr i ++ rest) = some (.jnum i, rest) := by
  by_cases hi : i < 0
  · have harg : intRepr i ++ rest = '-' :: (decRepr i.natAbs ++ rest) := by
      simp [intRepr, if_pos hi]
    rw [harg, pNum, if_pos rfl, pNatTok_decRepr _ _ hb]
    have hval : -((i.natAbs : Nat) : Int) = i := by omega
    simp only [Option.map_some']
    rw [hval]
  · obtain ⟨d, ds, hd⟩ : ∃ d ds, decRepr i.toNat = d :: ds := by
      cases hdd : decRepr i.toNat with
      | nil => exact absurd hdd (decRepr_ne_nil _)
      | cons a l => exact ⟨a, l, rfl⟩
    have hdig : d.isDigit = true := decRepr_digits i.toNat d (by rw [hd]; simp)
    have harg : intRepr i ++ rest = d :: (ds ++ rest) := by
      simp [intRepr, if_neg hi, hd]
    rw [harg, pNum, if_neg (digit_ne_minus hdig)]
    have hback : d :: (ds ++ rest) = decRepr i.toNat ++ rest := by
      rw [hd]; rfl
    rw [hback, pNatTok_decRepr _ _ hb]
    have hval : ((i.toNat : Nat) : Int) = i := by omega
    simp only [Option.map_some']
    rw [hval]

/-! ## Round-trip of the codec: string-level lemmas -/

theorem pHex4_escape (c : Char) (tail : List Char) (h8 : c.toNat < 32) :
    pHex4 ('0' :: '0' :: Nat.digitChar (c.toNat / 16) :: Nat.digitChar (c.toNat % 16) :: tail)
      = some (c.toNat, tail) := by
  have hdiv : c.toNat / 16 < 16 := by omega
  have hmod : c.toNat % 16 < 16 := Nat.mod_lt _ (by omega)
  have h0 : hexDigVal '0' = some 0 := rfl
  rw [pHex4, h0, hexDigVal_digitChar hdiv, hexDigVal_digitChar hmod]
  show some (((0 * 16 + 0) * 16 + c.toNat / 16) * 16 + c.toNat % 16, tail)
    = some (c.toNat, tail)
  have hv : ((0 * 16 + 0) * 16 + c.toNat / 16) * 16 + c.toNat % 16 = c.toNat := by omega
  rw [hv]

theorem pStrT_escCh (f : Nat) (c : Char) (tail : List Char) :
    pStrT (f + 1) (escCh c ++ tail) = (pStrT f tail).map fun pr => (c :: pr.1, pr.2) := by
  by_cases h1 : c = '"'
  · subst h1; rfl
  by_cases h2 : c = '\\'
  · subst h2; rfl
  by_cases h3 : c = '\n'
  · subst h3; rfl
  by_cases h4 : c = '\t'
  · subst h4; rfl
  by_cases h5 : c = '\r'
  · subst h5; rfl
  by_cases h6 : c = '\x08'
  · subst h6; rfl
  by_cases h7 : c = '\x0c'
  · subst h7; rfl
  by_cases h8 : c.toNat < 32
  · have harg : escCh c ++ tail
        = '\\' :: 'u' :: '0' :: '0' :: Nat.digitChar (c.toNat / 16)
            :: Nat.digitChar (c.toNat % 16) :: tail := by
      simp [escCh, h1, h2, h3, h4, h5, h6, h7, h8]
    have hstep : pStrT (f + 1) ('\\' :: 'u' :: '0' :: '0' :: Nat.digitChar (c.toNat / 16)
          :: Nat.digitChar (c.toNat % 16) :: tail)
        = match pHex4 ('0' :: '0' :: Nat.digitChar (c.toNat / 16)
            :: Nat.digitChar (c.toNat % 16) :: tail) with
          | some nr =>
            if nr.1.isValidChar then
              (pStrT f nr.2).map fun pr => (Char.ofNat nr.1 :: pr.1, pr.2)
            else none
          | none => none := rfl
    rw [harg, hstep, pHex4_escape c tail h8]
    show (if (c.toNat).isValidChar then
        (pStrT f tail).map fun pr => (Char.ofNat c.toNat :: pr.1, pr.2) else none)
      = (pStrT f tail).map fun pr => (c :: pr.1, pr.2)
    rw [if_pos (Or.inl (by omega : c.toNat < 0xd800))]
    rw [Char.ofNat_toNat]
  · have harg : escCh c ++ tail = c :: tail := by
      simp [escCh, h1, h2, h3, h4, h5, h6, h7, h8]
    rw [harg, pStrT.eq_def]
    simp only [if_neg h1, if_neg h2, if_neg h8]

theorem pStrT_escBody (cs : List Char) : ∀ (f : Nat) (rest : List Char), cs.length < f →
    pStrT f (escBody cs ++ '"' :: rest) = some (cs, rest) := by
  induction cs with
  | nil =>
    intro f rest hf
    match f, hf with
    | g + 1, _ => rfl
  | cons c cs ih =>
    intro f rest hf
    match f, hf with
    | g + 1, hf =>
      have hlen : cs.length < g := by simp [List.length_cons] at hf; omega
      have hstep : escBody (c :: cs) = escCh c ++ escBody cs := by simp [escBody]
      rw [hstep, List.append_assoc, pStrT_escCh g c _, ih g rest hlen]
      rfl

/-! ## Round-trip of the codec: head characters, whitespace, parser steps -/

theorem digit_not_ws {c : Char} (h : c.isDigit = true) : jws c = false := by
  have h1 : c ≠ ' ' := by rintro rfl; exact absurd h (by decide)
  have h2 : c ≠ '\t' := by rintro rfl; exact absurd h (by decide)
  have h3 : c ≠ '\n' := by rintro rfl; exact absurd h (by decide)
  have h4 : c ≠ '\r' := by rintro rfl; exact absurd h (by decide)
  simp [jws, h1, h2, h3, h4]

theorem digit_ne_closers {c : Char} (h : c.isDigit = true) : c ≠ ']' ∧ c ≠ '\x7d' :=
  ⟨by rintro rfl; exact absurd h (by decide), by rintro rfl; exact absurd h (by decide)⟩

/-- The head-character alternatives of any serialized value. -/
def LeadChar (c : Char) : Prop :=
  c = '-' ∨ c.isDigit = true ∨ c = '"' ∨ c = '[' ∨ c = '\x7b' ∨ c = 'n' ∨ c = 't' ∨ c = 'f'

theorem leadChar_props {c : Char} (h : LeadChar c) :
    jws c = false ∧ c ≠ ']' ∧ c ≠ '\x7d' := by
  rcases h with rfl | hd | rfl | rfl | rfl | rfl | rfl | rfl
  · exact ⟨by decide, by decide, by decide⟩
  · exact ⟨digit_not_ws hd, (digit_ne_closers hd).1, (digit_ne_closers hd).2⟩
  all_goals exact ⟨by decide, by decide, by decide⟩

theorem intRepr_head (i : Int) :
    ∃ c t, intRepr i = c :: t ∧ (c = '-' || c.isDigit) = true := by
  by_cases hi : i < 0
  · exact ⟨'-', decRepr i.natAbs, by simp [intRepr, hi], by decide⟩
  · obtain ⟨d, ds, hd⟩ : ∃ d ds, decRepr i.toNat = d :: ds := by
      cases hdd : decRepr i.toNat with
      | nil => exact absurd hdd (decRepr_ne_nil _)
      | cons a l => exact ⟨a, l, rfl⟩
    have hdig : d.isDigit = true := decRepr_digits i.toNat d (by rw [hd]; simp)
    exact ⟨d, ds, by simp [intRepr, hi, hd], by simp [hdig]⟩

theorem renderJ_head (v : JVal) : ∃ c t, renderJ v = c :: t ∧ LeadChar c := by
  cases v with
  | jnull => exact ⟨'n', _, rfl, by right; right; right; right; right; left; rfl⟩
  | jbool b =>
    cases b with
    | true => exact ⟨'t', _, rfl, by right; right; right; right; right; right; left; rfl⟩
    | false => exact ⟨'f', _, rfl, by
        right; right; right; right; right; right; right; rfl⟩
  | jnum i =>
    obtain ⟨c, t, heq, hp⟩ := intRepr_head i
    refine ⟨c, t, heq, ?_⟩
    simp only [Bool.or_eq_true, decide_eq_true_eq] at hp
    rcases hp with rfl | hd
    · left; rfl
    · right; left; exact hd
  | jstr s => exact ⟨'"', _, rfl, by right; right; left; rfl⟩
  | jarr xs => exact ⟨'[', _, rfl, by right; right; right; left; rfl⟩
  | jobj kvs => exact ⟨'\x7b', _, rfl, by right; right; right; right; left; rfl⟩

theorem dropWs_cons_nws (c : Char) (h : jws c = false) (t : List Char) :
    dropWs (c :: t) = c :: t := by
  simp [dropWs, h]

theorem dropWs_renderJ (v : JVal) (t : List Char) :
    dropWs (renderJ v ++ t) = renderJ v ++ t := by
  obtain ⟨c, r, heq, hp⟩ := renderJ_head v
  rw [heq, List.cons_append]
  exact dropWs_cons_nws c (leadChar_props hp).1 _

theorem renderItems_split (x : JVal) (xs : List JVal) :
    renderItems (x :: xs)
      = renderJ x ++ (match xs with
          | [] => []
          | y :: ys => ',' :: renderItems (y :: ys)) := by
  cases xs with
  | nil => simp [renderItems]
  | cons y ys => simp [renderItems]

theorem dropWs_renderItems (x : JVal) (xs : List JVal) (t : List Char) :
    dropWs (renderItems (x :: xs) ++ t) = renderItems (x :: xs) ++ t := by
  obtain ⟨c, r, heq, hp⟩ := renderJ_head x
  rw [renderItems_split, heq]
  simp only [List.cons_append, List.append_assoc]
  rw [dropWs_cons_nws c (leadChar_props hp).1 _]

theorem renderMems_split (kv : String × JVal) (kvs : List (String × JVal)) :
    renderMems (kv :: kvs)
      = (quoteStr kv.1 ++ ':' :: renderJ kv.2) ++ (match kvs with
          | [] => []
          | kv2 :: rest => ',' :: renderMems (kv2 :: rest)) := by
  cases kvs with
  | nil => simp [renderMems]
  | cons kv2 rest => simp [renderMems]

theorem dropWs_renderMems (kv : String × JVal) (kvs : List (String × JVal)) (t : List Char) :
    dropWs (renderMems (kv :: kvs) ++ t) = renderMems (kv :: kvs) ++ t := by
  rw [renderMems_split]
  simp only [quoteStr, List.cons_append, List.append_assoc]
  rw [dropWs_cons_nws '"' (by decide) _]

/-- One-step equations of the parser functions at successor fuel. -/
theorem pVal_step (f : Nat) (c : Char) (rest : List Char) :
    pVal (f + 1) (c :: rest)
      = (if c = '-' || c.isDigit then pNum (c :: rest)
        else if c = '"' then (pStrT f rest).map fun pr => (.jstr (String.mk pr.1), pr.2)
        else if c = '[' then
          match dropWs rest with
          | [] => none
          | c2 :: rest2 =>
            if c2 = ']' then some (.jarr [], rest2)
            else (pItems f (c2 :: rest2)).map fun pr => (.jarr pr.1, pr.2)
        else if c = '\x7b' then
          match dropWs rest with
          | [] => none
          | c2 :: rest2 =>
            if c2 = '\x7d' then some (.jobj [], rest2)
            else (pMems f (c2 :: rest2)).map fun pr => (.jobj pr.1, pr.2)
        else if c = 'n' then
          match rest with
          | 'u' :: 'l' :: 'l' :: r => some (.jnull, r)
          | _ => none
        else if c = 't' then
          match rest with
          | 'r' :: 'u' :: 'e' :: r => some (.jbool true, r)
          | _ => none
        else if c = 'f' then
          match rest with
          | 'a' :: 'l' :: 's' :: 'e' :: r => some (.jbool false, r)
          | _ => none
        else none) := rfl

theorem pItems_step (f : Nat) (cs : List Char) :
    pItems (f + 1) cs = (pVal f cs).bind fun pr => pItemsSep f pr.1 (dropWs pr.2) := rfl

theorem pItemsSep_comma (f : Nat) (v : JVal) (t : List Char) :
    pItemsSep (f + 1) v (',' :: t)
      = (pItems f (dropWs t)).map fun qr => (v :: qr.1, qr.2) := rfl

theorem pItemsSep_close (f : Nat) (v : JVal) (rest : List Char) :
    pItemsSep (f + 1) v (']' :: rest) = some ([v], rest) := rfl

theorem pMems_quote (f : Nat) (body : List Char) :
    pMems (f + 1) ('"' :: body)
      = (pStrT f body).bind fun kr => pMemSep1 f (String.mk kr.1) (dropWs kr.2) := rfl

theorem pMemSep1_colon (f : Nat) (k : String) (t : List Char) :
    pMemSep1 (f + 1) k (':' :: t)
      = (pVal f (dropWs t)).bind fun vr => pMemSep2 f k vr.1 (dropWs vr.2) := rfl

theorem pMemSep2_comma (f : Nat) (k : String) (v : JVal) (t : List Char) :
    pMemSep2 (f + 1) k v (',' :: t)
      = (pMems f (dropWs t)).map fun mr => ((k, v) :: mr.1, mr.2) := rfl

theorem pMemSep2_close (f : Nat) (k : String) (v : JVal) (rest : List Char) :
    pMemSep2 (f + 1) k v ('\x7d' :: rest) = some ([(k, v)], rest) := rfl

theorem escCh_len_pos (c : Char) : 1 ≤ (escCh c).length := by
  unfold escCh
  split_ifs <;> simp

theorem escBody_len_ge (cs : List Char) : cs.length ≤ (escBody cs).length := by
  induction cs with
  | nil => simp [escBody]
  | cons c cs ih =>
    have hstep : escBody (c :: cs) = escCh c ++ escBody cs := by simp [escBody]
    have := escCh_len_pos c
    rw [hstep]
    simp only [List.length_append, List.length_cons]
    omega

theorem renderJ_len_pos (v : JVal) : 1 ≤ (renderJ v).length := by
  obtain ⟨c, t, heq, _⟩ := renderJ_head v
  rw [heq]
  simp

theorem renderItems_head (x : JVal) (xs : List JVal) :
    ∃ c t, renderItems (x :: xs) = c :: t ∧ LeadChar c := by
  obtain ⟨c, t, heq, hp⟩ := renderJ_head x
  rw [renderItems_split, heq]
  refine ⟨c, t ++ (match xs with | [] => [] | y :: ys => ',' :: renderItems (y :: ys)), ?_, hp⟩
  simp

theorem quoteStr_len (k : String) : (quoteStr k).length = (escBody k.data).length + 2 := by
  simp [quoteStr]

theorem renderMems_head (kv : String × JVal) (kvs : List (String × JVal)) :
    ∃ t2, renderMems (kv :: kvs) = '"' :: t2 := by
  cases kvs with
  | nil =>
    exact ⟨escBody kv.1.data ++ '"' :: ':' :: renderJ kv.2, by simp [renderMems, quoteStr]⟩
  | cons kv2 r =>
    exact ⟨escBody kv.1.data ++ '"' :: ':' :: renderJ kv.2 ++ ',' :: renderMems (kv2 :: r),
      by simp [renderMems, quoteStr]⟩

/-! ## Round-trip of the codec: the main induction -/

mutual

theorem rtVal : ∀ (v : JVal) (f : Nat) (rest : List Char),
    (renderJ v).length < f → jBoundary rest = true →
    pVal f (renderJ v ++ rest) = some (v, rest)
  | .jnull, f, rest, hf, _ => by
    match f, hf with
    | g + 1, _ => rfl
  | .jbool true, f, rest, hf, _ => by
    match f, hf with
    | g + 1, _ => rfl
  | .jbool false, f, rest, hf, _ => by
    match f, hf with
    | g + 1, _ => rfl
  | .jnum i, f, rest, hf, hb => by
    match f, hf with
    | g + 1, _ =>
      obtain ⟨c, t, heq, hc⟩ := intRepr_head i
      have harg : renderJ (.jnum i) ++ rest = c :: (t ++ rest) := by
        show intRepr i ++ rest = c :: (t ++ rest)
        rw [heq]
        rfl
      rw [harg, pVal_step, if_pos hc, ← List.cons_append, ← heq]
      exact pNum_intRepr i rest hb
  | .jstr s, f, rest, hf, _ => by
    match f, hf with
    | g + 1, hf =>
      have harg : renderJ (.jstr s) ++ rest = '"' :: (escBody s.data ++ '"' :: rest) := by
        show quoteStr s ++ rest = _
        simp [quoteStr]
      have hlen : s.data.length < g := by
        have h1 := escBody_len_ge s.data
        have h2 : (renderJ (.jstr s)).length = (escBody s.data).length + 2 := by
          show (quoteStr s).length = _
          exact quoteStr_len s
        omega
      rw [harg]
      show (pStrT g (escBody s.data ++ '"' :: rest)).map
          (fun pr => (JVal.jstr (String.mk pr.1), pr.2)) = some (.jstr s, rest)
      rw [pStrT_escBody s.data g rest hlen]
      rfl
  | .jarr [], f, rest, hf, _ => by
    match f, hf with
    | g + 1, _ => rfl
  | .jarr (x :: xs), f, rest, hf, _ => by
    match f, hf with
    | g + 1, hf =>
      have harg : renderJ (.jarr (x :: xs)) ++ rest
          = '[' :: (renderItems (x :: xs) ++ ']' :: rest) := by
        show ('[' :: renderItems (x :: xs) ++ [']']) ++ rest = _
        simp
      have hlen : (renderItems (x :: xs)).length + 1 < g := by
        have h2 : (renderJ (.jarr (x :: xs))).length = (renderItems (x :: xs)).length + 2 := by
          show ('[' :: renderItems (x :: xs) ++ [']']).length = _
          simp
        omega
      obtain ⟨c, t, hieq, hip⟩ := renderItems_head x xs
      rw [harg]
      show (match dropWs (renderItems (x :: xs) ++ ']' :: rest) with
        | [] => none
        | c2 :: rest2 =>
          if c2 = ']' then some (JVal.jarr [], rest2)
          else (pItems g (c2 :: rest2)).map fun pr => (JVal.jarr pr.1, pr.2))
        = some (.jarr (x :: xs), rest)
      rw [dropWs_renderItems x xs, hieq, List.cons_append]
      show (if c = ']' then some (JVal.jarr [], t ++ ']' :: rest)
        else (pItems g (c :: (t ++ ']' :: rest))).map fun pr => (JVal.jarr pr.1, pr.2))
        = some (.jarr (x :: xs), rest)
      rw [if_neg (leadChar_props hip).2.1, ← List.cons_append, ← hieq,
        rtItems x xs g rest hlen]
      rfl
  | .jobj [], f, rest, hf, _ => by
    match f, hf with
    | g + 1, _ => rfl
  | .jobj (kv :: kvs), f, rest, hf, _ => by
    match f, hf with
    | g + 1, hf =>
      have harg : renderJ (.jobj (kv :: kvs)) ++ rest
          = '\x7b' :: (renderMems (kv :: kvs) ++ '\x7d' :: rest) := by
        show ('\x7b' :: renderMems (kv :: kvs) ++ ['\x7d']) ++ rest = _
        simp
      have hlen : (renderMems (kv :: kvs)).length + 1 < g := by
        have h2 : (renderJ (.jobj (kv :: kvs))).length
            = (renderMems (kv :: kvs)).length + 2 := by
          show ('\x7b' :: renderMems (kv :: kvs) ++ ['\x7d']).length = _
          simp
        omega
      obtain ⟨t2, hmeq⟩ := renderMems_head kv kvs
      rw [harg]
      show (match dropWs (renderMems (kv :: kvs) ++ '\x7d' :: rest) with
        | [] => none
        | c2 :: rest2 =>
          if c2 = '\x7d' then some (JVal.jobj [], rest2)
          else (pMems g (c2 :: rest2)).map fun pr => (JVal.jobj pr.1, pr.2))
        = some (.jobj (kv :: kvs), rest)
      rw [dropWs_renderMems kv kvs, hmeq, List.cons_append]
      show (if '"' = '\x7d' then some (JVal.jobj [], t2 ++ '\x7d' :: rest)
        else (pMems g ('"' :: (t2 ++ '\x7d' :: rest))).map fun pr => (JVal.jobj pr.1, pr.2))
        = some (.jobj (kv :: kvs), rest)
      rw [if_neg (by decide : ¬ ('"' = '\x7d')), ← List.cons_append, ← hmeq,
        rtMems kv kvs g rest hlen]
      rfl
termination_by v _ _ _ _ => sizeOf v

theorem rtItems : ∀ (x : JVal) (xs : List JVal) (f : Nat) (rest : List Char),
    (renderItems (x :: xs)).length + 1 < f →
    pItems f (renderItems (x :: xs) ++ ']' :: rest) = some (x :: xs, rest)
  | x, [], f, rest, hf => by
    match f, hf with
    | g + 1, hf =>
      have hone : renderItems [x] = renderJ x := by simp [renderItems]
      have hlen : (renderJ x).length < g := by rw [hone] at hf; simp at hf; omega
      have harg : renderItems [x] ++ ']' :: rest = renderJ x ++ ']' :: rest := by
        rw [hone]
      rw [harg, pItems_step, rtVal x g (']' :: rest) hlen rfl]
      show pItemsSep g x (dropWs (']' :: rest)) = some ([x], rest)
      rw [dropWs_cons_nws ']' (by decide)]
      cases g with
      | zero => omega
      | succ h => exact pItemsSep_close h x rest
  | x, y :: ys, f, rest, hf => by
    match f, hf with
    | g + 1, hf =>
      have hsplit : renderItems (x :: y :: ys) = renderJ x ++ ',' :: renderItems (y :: ys) := by
        simp [renderItems]
      have hflen : (renderJ x).length + 1 + (renderItems (y :: ys)).length + 1 < g + 1 := by
        rw [hsplit] at hf
        simp only [List.length_append, List.length_cons] at hf
        omega
      have hlenx : (renderJ x).length < g := by omega
      have harg : renderItems (x :: y :: ys) ++ ']' :: rest
          = renderJ x ++ (',' :: (renderItems (y :: ys) ++ ']' :: rest)) := by
        rw [hsplit]
        simp
      rw [harg, pItems_step,
        rtVal x g (',' :: (renderItems (y :: ys) ++ ']' :: rest)) hlenx rfl]
      show pItemsSep g x (dropWs (',' :: (renderItems (y :: ys) ++ ']' :: rest)))
        = some (x :: y :: ys, rest)
      rw [dropWs_cons_nws ',' (by decide)]
      cases g with
      | zero => omega
      | succ h =>
        rw [pItemsSep_comma h x _, dropWs_renderItems y ys _]
        have hleny : (renderItems (y :: ys)).length + 1 < h := by
          have := renderJ_len_pos x
          omega
        rw [rtItems y ys h rest hleny]
        rfl
termination_by x xs _ _ _ => sizeOf x + sizeOf xs

theorem rtMems : ∀ (kv : String × JVal) (kvs : List (String × JVal)) (f : Nat)
    (rest : List Char),
    (renderMems (kv :: kvs)).length + 1 < f →
    pMems f (renderMems (kv :: kvs) ++ '\x7d' :: rest) = some (kv :: kvs, rest)
  | (k, v), [], f, rest, hf => by
    match f, hf with
    | g + 1, hf =>
      have hone : renderMems [(k, v)] = quoteStr k ++ ':' :: renderJ v := by
        simp [renderMems]
      have hlens : (escBody k.data).length + 2 + 1 + (renderJ v).length + 1 < g + 1 := by
        rw [hone] at hf
        simp only [List.length_append, List.length_cons, quoteStr_len] at hf
        omega
      have hkesc := escBody_len_ge k.data
      have hvpos := renderJ_len_pos v
      have hklen : k.data.length < g := by omega
      have harg : renderMems [(k, v)] ++ '\x7d' :: rest
          = '"' :: (escBody k.data ++ '"' :: (':' :: (renderJ v ++ '\x7d' :: rest))) := by
        rw [hone]
        simp [quoteStr]
      rw [harg]
      show (pStrT g (escBody k.data ++ '"' :: (':' :: (renderJ v ++ '\x7d' :: rest)))).bind
          (fun kr => pMemSep1 g (String.mk kr.1) (dropWs kr.2)) = some ([(k, v)], rest)
      rw [pStrT_escBody k.data g _ hklen]
      show pMemSep1 g (String.mk k.data) (dropWs (':' :: (renderJ v ++ '\x7d' :: rest)))
        = some ([(k, v)], rest)
      rw [dropWs_cons_nws ':' (by decide)]
      cases g with
      | zero => omega
      | succ h =>
        rw [pMemSep1_colon h _ _, dropWs_renderJ v _]
        have hvlen : (renderJ v).length < h := by omega
        rw [rtVal v h ('\x7d' :: rest) hvlen rfl]
        show pMemSep2 h (String.mk k.data) v (dropWs ('\x7d' :: rest)) = some ([(k, v)], rest)
        rw [dropWs_cons_nws '\x7d' (by decide)]
        cases h with
        | zero => omega
        | succ h2 =>
          rw [pMemSep2_close h2 _ v rest]
  | (k, v), kv2 :: kvs, f, rest, hf => by
    match f, hf with
    | g + 1, hf =>
      have hsplit : renderMems ((k, v) :: kv2 :: kvs)
          = (quoteStr k ++ ':' :: renderJ v) ++ ',' :: renderMems (kv2 :: kvs) := by
        simp [renderMems]
      have hlens : (escBody k.data).length + 2 + 1 + (renderJ v).length + 1
          + (renderMems (kv2 :: kvs)).length + 1 < g + 1 := by
        rw [hsplit] at hf
        simp only [List.length_append, List.length_cons, quoteStr_len] at hf
        omega
      have hkesc := escBody_len_ge k.data
      have hvpos := renderJ_len_pos v
      have hklen : k.data.length < g := by omega
      have harg : renderMems ((k, v) :: kv2 :: kvs) ++ '\x7d' :: rest
          = '"' :: (escBody k.data ++ '"' :: (':' :: (renderJ v
              ++ (',' :: (renderMems (kv2 :: kvs) ++ '\x7d' :: rest))))) := by
        rw [hsplit]
        simp [quoteStr]
      rw [harg]
      show (pStrT g (escBody k.data ++ '"' :: (':' :: (renderJ v
          ++ (',' :: (renderMems (kv2 :: kvs) ++ '\x7d' :: rest)))))).bind
          (fun kr => pMemSep1 g (String.mk kr.1) (dropWs kr.2))
        = some ((k, v) :: kv2 :: kvs, rest)
      rw [pStrT_escBody k.data g _ hklen]
      show pMemSep1 g (String.mk k.data) (dropWs (':' :: (renderJ v
          ++ (',' :: (renderMems (kv2 :: kvs) ++ '\x7d' :: rest)))))
        = some ((k, v) :: kv2 :: kvs, rest)
      rw [dropWs_cons_nws ':' (by decide)]
      cases g with
      | zero => omega
      | succ h =>
        rw [pMemSep1_colon h _ _, dropWs_renderJ v _]
        have hvlen : (renderJ v).length < h := by omega
        rw [rtVal v h (',' :: (renderMems (kv2 :: kvs) ++ '\x7d' :: rest)) hvlen rfl]
        show pMemSep2 h (String.mk k.data) v
            (dropWs (',' :: (renderMems (kv2 :: kvs) ++ '\x7d' :: rest)))
          = some ((k, v) :: kv2 :: kvs, rest)
        rw [dropWs_cons_nws ',' (by decide)]
        cases h with
        | zero => omega
        | succ h2 =>
          rw [pMemSep2_comma h2 _ v _, dropWs_renderMems kv2 kvs _]
          have hlen2 : (renderMems (kv2 :: kvs)).length + 1 < h2 := by omega
          rw [rtMems kv2 kvs h2 rest hlen2]
          rfl
termination_by kv kvs _ _ _ => sizeOf kv + sizeOf kvs

end

/-! ## Round-trip of the codec: the top-level law -/

theorem decRepr_last (n : Nat) : ∃ t c, decRepr n = t ++ [c] ∧ c.isDigit = true := by
  rw [decRepr_unfold]
  by_cases h10 : n < 10
  · exact ⟨[], Nat.digitChar n, by simp [h10], digitChar_isDigit h10⟩
  · exact ⟨decRepr (n / 10), Nat.digitChar (n % 10), by simp [h10],
      digitChar_isDigit (Nat.mod_lt _ (by omega))⟩

theorem renderJ_last (v : JVal) : ∃ t c, renderJ v = t ++ [c] ∧ jws c = false := by
  cases v with
  | jnull => exact ⟨['n', 'u', 'l'], 'l', rfl, by decide⟩
  | jbool b =>
    cases b with
    | true => exact ⟨['t', 'r', 'u'], 'e', rfl, by decide⟩
    | false => exact ⟨['f', 'a', 'l', 's'], 'e', rfl, by decide⟩
  | jnum i =>
    by_cases hi : i < 0
    · obtain ⟨t, c, heq, hc⟩ := decRepr_last i.natAbs
      exact ⟨'-' :: t, c, by simp [renderJ, intRepr, hi, heq], digit_not_ws hc⟩
    · obtain ⟨t, c, heq, hc⟩ := decRepr_last i.toNat
      exact ⟨t, c, by simp [renderJ, intRepr, hi, heq], digit_not_ws hc⟩
  | jstr s =>
    exact ⟨'"' :: escBody s.data, '"', by simp [renderJ, quoteStr], by decide⟩
  | jarr xs =>
    exact ⟨'[' :: renderItems xs, ']', by simp [renderJ], by decide⟩
  | jobj kvs =>
    exact ⟨'\x7b' :: renderMems kvs, '\x7d', by simp [renderJ], by decide⟩

theorem trimChars_renderJ (v : JVal) : trimChars (renderJ v) = renderJ v := by
  have hd : dropWs (renderJ v) = renderJ v := by
    have h := dropWs_renderJ v []
    simpa using h
  obtain ⟨t, c, heq, hc⟩ := renderJ_last v
  rw [trimChars, hd, heq, List.reverse_append, List.reverse_singleton,
    List.singleton_append, List.dropWhile_cons, hc]
  simp

theorem decodeResponse_encodeRequest (v : JVal) :
    decodeResponse (encodeRequest v) = some v := by
  show parseDoc (trimChars (renderJ v)) = some v
  rw [trimChars_renderJ]
  show (match pVal (2 * (renderJ v).length + 2) (dropWs (renderJ v)) with
    | some pr => if dropWs pr.2 = [] then some pr.1 else none
    | none => none) = some v
  have hd : dropWs (renderJ v) = renderJ v := by
    have h := dropWs_renderJ v []
    simpa using h
  rw [hd]
  have hrt := rtVal v (2 * (renderJ v).length + 2) [] (by omega) rfl
  rw [List.append_nil] at hrt
  rw [hrt]
  rfl

/-! ## The wire line is a single line -/

theorem escCh_no_nl (c : Char) : '\n' ∉ escCh c := by
  by_cases h1 : c = '"'
  · subst h1; decide
  by_cases h2 : c = '\\'
  · subst h2; decide
  by_cases h3 : c = '\n'
  · subst h3; decide
  by_cases h4 : c = '\t'
  · subst h4; decide
  by_cases h5 : c = '\r'
  · subst h5; decide
  by_cases h6 : c = '\x08'
  · subst h6; decide
  by_cases h7 : c = '\x0c'
  · subst h7; decide
  by_cases h8 : c.toNat < 32
  · have harg : escCh c = ['\\', 'u', '0', '0', Nat.digitChar (c.toNat / 16),
        Nat.digitChar (c.toNat % 16)] := by
      simp [escCh, h1, h2, h3, h4, h5, h6, h7, h8]
    have hdiv : Nat.digitChar (c.toNat / 16) ≠ '\n' := by
      have h16 : c.toNat / 16 < 16 := by omega
      interval_cases h : c.toNat / 16 <;> decide
    have hmod : Nat.digitChar (c.toNat % 16) ≠ '\n' := by
      have h16 : c.toNat % 16 < 16 := Nat.mod_lt _ (by omega)
      interval_cases h : c.toNat % 16 <;> decide
    rw [harg]
    intro hmem
    simp only [List.mem_cons, List.not_mem_nil, or_false] at hmem
    rcases hmem with h | h | h | h | h | h <;> first
      | exact absurd h.symm (by decide)
      | exact absurd h.symm hdiv
      | exact absurd h.symm hmod
  · have harg : escCh c = [c] := by
      simp [escCh, h1, h2, h3, h4, h5, h6, h7, h8]
    rw [harg]
    intro hmem
    rw [List.mem_singleton] at hmem
    exact h3 hmem.symm

theorem escBody_no_nl (cs : List Char) : '\n' ∉ escBody cs := by
  induction cs with
  | nil => simp [escBody]
  | cons c cs ih =>
    have hstep : escBody (c :: cs) = escCh c ++ escBody cs := by simp [escBody]
    rw [hstep]
    intro hmem
    rw [List.mem_append] at hmem
    rcases hmem with h | h
    · exact escCh_no_nl c h
    · exact ih h

theorem decRepr_no_nl (n : Nat) : '\n' ∉ decRepr n := by
  intro hmem
  have := decRepr_digits n '\n' hmem
  exact absurd this (by decide)

theorem intRepr_no_nl (i : Int) : '\n' ∉ intRepr i := by
  unfold intRepr
  split_ifs with hi
  · intro hmem
    rcases List.mem_cons.mp hmem with h | h
    · exact absurd h (by decide)
    · exact decRepr_no_nl _ h
  · exact decRepr_no_nl _

mutual

theorem renderJ_no_nl : ∀ (v : JVal), '\n' ∉ renderJ v
  | .jnull => by decide
  | .jbool true => by decide
  | .jbool false => by decide
  | .jnum i => intRepr_no_nl i
  | .jstr s => by
    show '\n' ∉ quoteStr s
    rw [quoteStr]
    intro hmem
    rcases List.mem_cons.mp hmem with h | h
    · exact absurd h (by decide)
    · rcases List.mem_append.mp h with h2 | h2
      · exact escBody_no_nl s.data h2
      · rw [List.mem_singleton] at h2
        exact absurd h2 (by decide)
  | .jarr xs => by
    show '\n' ∉ '[' :: renderItems xs ++ [']']
    intro hmem
    rcases List.mem_cons.mp hmem with h | h
    · exact absurd h (by decide)
    · rcases List.mem_append.mp h with h2 | h2
      · exact renderItems_no_nl xs h2
      · rw [List.mem_singleton] at h2
        exact absurd h2 (by decide)
  | .jobj kvs => by
    show '\n' ∉ '\x7b' :: renderMems kvs ++ ['\x7d']
    intro hmem
    rcases List.mem_cons.mp hmem with h | h
    · exact absurd h (by decide)
    · rcases List.mem_append.mp h with h2 | h2
      · exact renderMems_no_nl kvs h2
      · rw [List.mem_singleton] at h2
        exact absurd h2 (by decide)

theorem renderItems_no_nl : ∀ (xs : List JVal), '\n' ∉ renderItems xs
  | [] => by simp [renderItems]
  | [x] => by
    show '\n' ∉ renderItems [x]
    have hone : renderItems [x] = renderJ x := by simp [renderItems]
    rw [hone]
    exact renderJ_no_nl x
  | x :: y :: rest => by
    show '\n' ∉ renderJ x ++ ',' :: renderItems (y :: rest)
    intro hmem
    rcases List.mem_append.mp hmem with h | h
    · exact renderJ_no_nl x h
    · rcases List.mem_cons.mp h with h2 | h2
      · exact absurd h2 (by decide)
      · exact renderItems_no_nl (y :: rest) h2

theorem renderMems_no_nl : ∀ (kvs : List (String × JVal)), '\n' ∉ renderMems kvs
  | [] => by simp [renderMems]
  | [kv] => by
    show '\n' ∉ quoteStr kv.1 ++ ':' :: renderJ kv.2
    intro hmem
    rcases List.mem_append.mp hmem with h | h
    · have hq : quoteStr kv.1 = '"' :: escBody kv.1.data ++ ['"'] := rfl
      rw [hq] at h
      rcases List.mem_cons.mp h with h2 | h2
      · exact absurd h2 (by decide)
      · rcases List.mem_append.mp h2 with h3 | h3
        · exact escBody_no_nl kv.1.data h3
        · rw [List.mem_singleton] at h3
          exact absurd h3 (by decide)
    · rcases List.mem_cons.mp h with h2 | h2
      · exact absurd h2 (by decide)
      · exact renderJ_no_nl kv.2 h2
  | kv :: kv2 :: rest => by
    show '\n' ∉ (quoteStr kv.1 ++ ':' :: renderJ kv.2) ++ ',' :: renderMems (kv2 :: rest)
    intro hmem
    rcases List.mem_append.mp hmem with h | h
    · rcases List.mem_append.mp h with h1 | h1
      · have hq : quoteStr kv.1 = '"' :: escBody kv.1.data ++ ['"'] := rfl
        rw [hq] at h1
        rcases List.mem_cons.mp h1 with h2 | h2
        · exact absurd h2 (by decide)
        · rcases List.mem_append.mp h2 with h3 | h3
          · exact escBody_no_nl kv.1.data h3
          · rw [List.mem_singleton] at h3
            exact absurd h3 (by decide)
      · rcases List.mem_cons.mp h1 with h2 | h2
        · exact absurd h2 (by decide)
        · exact renderJ_no_nl kv.2 h2
    · rcases List.mem_cons.mp h with h2 | h2
      · exact absurd h2 (by decide)
      · exact renderMems_no_nl (kv2 :: rest) h2

end

/-! ## Streaming engine: line-level decomposition -/

/-- Progress envelopes a single line contributes to the emission list. -/
def progressOf (line : String) : List JVal :=
  let t := trimChars line.data
  if t.isEmpty then []
  else
    match parseDoc t with
    | none => []
    | some v =>
      match typeField v with
      | some ty => if ty = "progress" then [v] else []
      | none => []

/-- Progress envelopes contributed by a list of lines, in order. -/
def progressList : List String → List JVal
  | [] => []
  | l :: ls => progressOf l ++ progressList ls

theorem parseDoc_nil : parseDoc [] = none := rfl

theorem decode_nonempty {l : String} {v : JVal}
    (h : parseDoc (trimChars l.data) = some v) : (trimChars l.data).isEmpty = false := by
  cases ht : trimChars l.data with
  | nil =>
    rw [ht, parseDoc_nil] at h
    exact absurd h (by simp)
  | cons c t => rfl

theorem recvStep_blank (s : StreamState) (l : String)
    (he : (trimChars l.data).isEmpty = true) : recvStep s l = (s, false) := by
  rw [recvStep]
  simp [he]

theorem recvStep_undecoded (s : StreamState) (l : String)
    (hd : parseDoc (trimChars l.data) = none) : recvStep s l = (s, false) := by
  rw [recvStep]
  by_cases he : (trimChars l.data).isEmpty
  · simp [he]
  · simp [he, hd]

theorem recvStep_decoded (s : StreamState) (l : String) (v : JVal)
    (hd : parseDoc (trimChars l.data) = some v) : recvStep s l = recvEnvelope s v := by
  rw [recvStep]
  simp [decode_nonempty hd, hd]

theorem recvEnvelope_typed (s : StreamState) (v : JVal) (ty : String)
    (ht : typeField v = some ty) :
    recvEnvelope s v
      = (if ty = "progress" then ({ s with emitted := s.emitted ++ [v] }, false)
        else if ty = "result" then ({ s with result_cell := some v }, true)
        else if ty = "error" then
          ({ s with error_cell := (v.get "message").bind JVal.asStr }, true)
        else (s, false)) := by
  rw [recvEnvelope, ht]

theorem recvEnvelope_untyped (s : StreamState) (v : JVal)
    (ht : typeField v = none) : recvEnvelope s v = (s, false) := by
  rw [recvEnvelope, ht]

theorem isTerminalLine_blank (l : String) (he : (trimChars l.data).isEmpty = true) :
    isTerminalLine l = false := by
  rw [isTerminalLine, he]
  rfl

theorem isTerminalLine_undecoded (l : String)
    (hd : parseDoc (trimChars l.data) = none) : isTerminalLine l = false := by
  rw [isTerminalLine, hd]
  simp

theorem isTerminalLine_decoded (l : String) (v : JVal)
    (hd : parseDoc (trimChars l.data) = some v) :
    isTerminalLine l
      = (decide (typeField v = some "result") || decide (typeField v = some "error")) := by
  rw [isTerminalLine, hd, decode_nonempty hd]
  simp

theorem progressOf_blank (l : String) (he : (trimChars l.data).isEmpty = true) :
    progressOf l = [] := by
  rw [progressOf]
  simp [he]

theorem progressOf_undecoded (l : String) (hd : parseDoc (trimChars l.data) = none) :
    progressOf l = [] := by
  rw [progressOf]
  by_cases he : (trimChars l.data).isEmpty
  · simp [he]
  · simp [he, hd]

theorem progressOf_decoded (l : String) (v : JVal)
    (hd : parseDoc (trimChars l.data) = some v) :
    progressOf l
      = (match typeField v with
        | some ty => if ty = "progress" then [v] else []
        | none => []) := by
  rw [progressOf]
  simp [decode_nonempty hd, hd]

/-- A line the reader stop test rejects only appends its progress envelopes. -/
theorem recvStep_nonterm (s : StreamState) (l : String) (h : isTerminalLine l = false) :
    recvStep s l = ({ s with emitted := s.emitted ++ progressOf l }, false) := by
  by_cases he : (trimChars l.data).isEmpty
  · rw [recvStep_blank s l he, progressOf_blank l he]
    simp
  · cases hp : parseDoc (trimChars l.data) with
    | none =>
      rw [recvStep_undecoded s l hp, progressOf_undecoded l hp]
      simp
    | some v =>
      rw [recvStep_decoded s l v hp, progressOf_decoded l v hp]
      have hterm := isTerminalLine_decoded l v hp
      rw [h] at hterm
      cases ht : typeField v with
      | none =>
        rw [recvEnvelope_untyped s v ht]
        simp
      | some ty =>
        rw [ht] at hterm
        rw [recvEnvelope_typed s v ty ht]
        by_cases h1 : ty = "progress"
        · subst h1
          simp
        · have h2 : ty ≠ "result" := by
            intro hc; subst hc; simp at hterm
          have h3 : ty ≠ "error" := by
            intro hc; subst hc; simp at hterm
          simp [h1, h2, h3]

/-- The receiver step on a line decoding to a `result` envelope. -/
theorem recvStep_result (s : StreamState) (l : String) (v : JVal)
    (hd : parseDoc (trimChars l.data) = some v) (ht : typeField v = some "result") :
    recvStep s l = ({ s with result_cell := some v }, true) := by
  rw [recvStep_decoded s l v hd, recvEnvelope_typed s v _ ht]
  simp

/-- The receiver step on a line decoding to an `error` envelope. -/
theorem recvStep_error (s : StreamState) (l : String) (v : JVal)
    (hd : parseDoc (trimChars l.data) = some v) (ht : typeField v = some "error") :
    recvStep s l = ({ s with error_cell := (v.get "message").bind JVal.asStr }, true) := by
  rw [recvStep_decoded s l v hd, recvEnvelope_typed s v _ ht]
  simp

/-- The reader forwards a non-terminal prefix in full. -/
theorem sentLines_nonterm (ls rest : List String)
    (h : ∀ l ∈ ls, isTerminalLine l = false) :
    sentLines (ls ++ rest) = ls ++ sentLines rest := by
  induction ls with
  | nil => simp
  | cons l ls ih =>
    have hl : isTerminalLine l = false := h l (by simp)
    rw [List.cons_append, sentLines, hl]
    simp only [Bool.false_eq_true, if_false]
    rw [ih (fun x hx => h x (by simp [hx]))]
    rfl

theorem sentLines_singleton (l : String) : sentLines [l] = [l] := by
  rw [sentLines]
  by_cases h : isTerminalLine l <;> simp [h, sentLines]

/-- The receiver folds a non-terminal prefix into emitted progress. -/
theorem recvLoop_nonterm (ls : List String) (h : ∀ l ∈ ls, isTerminalLine l = false) :
    ∀ (rest : List String) (s : StreamState),
    recvLoop (ls ++ rest) s
      = recvLoop rest { s with emitted := s.emitted ++ progressList ls } := by
  induction ls with
  | nil =>
    intro rest s
    simp [progressList]
  | cons l ls ih =>
    intro rest s
    have hl : isTerminalLine l = false := h l (by simp)
    rw [List.cons_append, recvLoop, recvStep_nonterm s l hl]
    show recvLoop (ls ++ rest) { s with emitted := s.emitted ++ progressOf l }
      = recvLoop rest { s with emitted := s.emitted ++ progressList (l :: ls) }
    rw [ih (fun x hx => h x (by simp [hx])) rest _]
    rw [progressList]
    simp [List.append_assoc]

/-! ## Streaming engine: whole-call lemmas -/

theorem forall₂_exists_right {α β : Type} {R : α → β → Prop} :
    ∀ {as : List α} {bs : List β}, List.Forall₂ R as bs → ∀ a ∈ as, ∃ b, R a b := by
  intro as bs h
  induction h with
  | nil => intro a ha; exact absurd ha (by simp)
  | cons hr _ ih =>
    intro a ha
    rcases List.mem_cons.mp ha with rfl | ha2
    · exact ⟨_, hr⟩
    · exact ih a ha2

/-- A line carrying a decoded `progress` envelope is not a stop line. -/
theorem progress_line_not_terminal (l : String) (p : JVal)
    (hd : decodeResponse l = some p) (ht : typeField p = some "progress") :
    isTerminalLine l = false := by
  rw [isTerminalLine_decoded l p hd, ht]
  simp

/-- Final receiver state when the worker emits decoded progress lines and
then one `result` line. -/
theorem streamFinal_progress_result (lines : List String) (ps : List JVal)
    (rl : String) (r : JVal)
    (hp : List.Forall₂
      (fun l p => decodeResponse l = some p ∧ typeField p = some "progress") lines ps)
    (hr : decodeResponse rl = some r) (hrt : typeField r = some "result") :
    streamFinal (lines ++ [rl]) = ⟨ps, some r, none⟩ := by
  have hterm : ∀ l ∈ lines, isTerminalLine l = false := by
    intro l hl
    obtain ⟨p, hd, ht⟩ := forall₂_exists_right hp l hl
    exact progress_line_not_terminal l p hd ht
  have hprog : progressList lines = ps := by
    clear hterm
    induction hp with
    | nil => rfl
    | cons hr2 _ ih =>
      rw [progressList, progressOf_decoded _ _ hr2.1, hr2.2, ih]
      simp
  rw [streamFinal, sentLines_nonterm lines [rl] hterm, sentLines_singleton,
    recvLoop_nonterm lines hterm [rl] _]
  rw [recvLoop, recvStep_result _ rl r hr hrt]
  show (⟨[] ++ progressList lines, some r, none⟩ : StreamState) = ⟨ps, some r, none⟩
  rw [List.nil_append, hprog]

/-- Final receiver state when the worker emits non-terminal lines and then
one `error` line. -/
theorem streamFinal_error (pre : List String) (el : String) (v : JVal)
    (hpre : ∀ l ∈ pre, isTerminalLine l = false)
    (hd : decodeResponse el = some v) (ht : typeField v = some "error") :
    streamFinal (pre ++ [el])
      = ⟨progressList pre, none, (v.get "message").bind JVal.asStr⟩ := by
  rw [streamFinal, sentLines_nonterm pre [el] hpre, sentLines_singleton,
    recvLoop_nonterm pre hpre [el] _]
  rw [recvLoop, recvStep_error _ el v hd ht]
  show (⟨[] ++ progressList pre, none, (v.get "message").bind JVal.asStr⟩ : StreamState)
    = ⟨progressList pre, none, (v.get "message").bind JVal.asStr⟩
  rw [List.nil_append]

/-- Final receiver state when no line passes the stop test before the
stream ends. -/
theorem streamFinal_noterm (lines : List String)
    (h : ∀ l ∈ lines, isTerminalLine l = false) :
    streamFinal lines = ⟨progressList lines, none, none⟩ := by
  have hsent : sentLines lines = lines := by
    have h2 := sentLines_nonterm lines [] h
    simpa [sentLines] using h2
  have hl2 := recvLoop_nonterm lines h [] (⟨[], none, none⟩ : StreamState)
  rw [List.append_nil] at hl2
  rw [streamFinal, hsent, hl2, recvLoop]
  show (⟨[] ++ progressList lines, none, none⟩ : StreamState)
    = ⟨progressList lines, none, none⟩
  rw [List.nil_append]

/-- Every receiver step either appends emissions without breaking, or
breaks filling exactly one cell. -/
theorem recvStep_shape (s : StreamState) (l : String) :
    (∃ E, recvStep s l = ({ s with emitted := s.emitted ++ E }, false))
    ∨ (∃ v, recvStep s l = ({ s with result_cell := some v }, true))
    ∨ (∃ m, recvStep s l = ({ s with error_cell := m }, true)) := by
  by_cases he : (trimChars l.data).isEmpty
  · left
    exact ⟨[], by rw [recvStep_blank s l he]; simp⟩
  · cases hp : parseDoc (trimChars l.data) with
    | none =>
      left
      exact ⟨[], by rw [recvStep_undecoded s l hp]; simp⟩
    | some v =>
      cases ht : typeField v with
      | none =>
        left
        refine ⟨[], ?_⟩
        rw [recvStep_decoded s l v hp, recvEnvelope_untyped s v ht]
        simp
      | some ty =>
        by_cases h1 : ty = "progress"
        · left
          refine ⟨[v], ?_⟩
          subst h1
          rw [recvStep_decoded s l v hp, recvEnvelope_typed s v _ ht]
          simp
        by_cases h2 : ty = "result"
        · right; left
          refine ⟨v, ?_⟩
          subst h2
          rw [recvStep_decoded s l v hp, recvEnvelope_typed s v _ ht]
          simp [h1]
        by_cases h3 : ty = "error"
        · right; right
          refine ⟨(v.get "message").bind JVal.asStr, ?_⟩
          subst h3
          rw [recvStep_decoded s l v hp, recvEnvelope_typed s v _ ht]
          simp [h1, h2]
        · left
          refine ⟨[], ?_⟩
          rw [recvStep_decoded s l v hp, recvEnvelope_typed s v _ ht]
          simp [h1, h2, h3]

/-- Starting from empty cells, the receiver loop never fills both cells. -/
theorem recvLoop_cells_exclusive : ∀ (sent : List String) (s : StreamState),
    s.result_cell = none → s.error_cell = none →
    ((recvLoop sent s).result_cell.isSome && (recvLoop sent s).error_cell.isSome) = false := by
  intro sent
  induction sent with
  | nil =>
    intro s hr he
    rw [recvLoop, hr, he]
    rfl
  | cons l ls ih =>
    intro s hr he
    rcases recvStep_shape s l with ⟨E, hstep⟩ | ⟨v, hstep⟩ | ⟨m, hstep⟩
    · rw [recvLoop, hstep]
      exact ih _ hr he
    · rw [recvLoop, hstep]
      show (Option.isSome (some v) && Option.isSome s.error_cell) = false
      rw [he]
      rfl
    · rw [recvLoop, hstep]
      show (Option.isSome s.result_cell && Option.isSome m) = false
      rw [hr]
      rfl

/-- Ignorable (blank or undecodable) lines: the reader never stops on them
and the receiver state passes through unchanged. -/
def ignorableLine (l : String) : Bool :=
  (trimChars l.data).isEmpty || (decodeResponse l).isNone

theorem ignorable_not_terminal (l : String) (h : ignorableLine l = true) :
    isTerminalLine l = false := by
  rw [ignorableLine] at h
  rcases Bool.or_eq_true_iff.mp h with he | hn
  · exact isTerminalLine_blank l he
  · rw [Option.isNone_iff_eq_none] at hn
    exact isTerminalLine_undecoded l hn

theorem ignorable_recvStep (s : StreamState) (l : String) (h : ignorableLine l = true) :
    recvStep s l = (s, false) := by
  rw [ignorableLine] at h
  rcases Bool.or_eq_true_iff.mp h with he | hn
  · exact recvStep_blank s l he
  · rw [Option.isNone_iff_eq_none] at hn
    exact recvStep_undecoded s l hn

/-- Deleting one ignorable line anywhere in the stream leaves the receiver
result unchanged. -/
theorem recvLoop_skip_ignorable (l : String) (hig : ignorableLine l = true) :
    ∀ (pre post : List String) (s : StreamState),
    recvLoop (sentLines (pre ++ l :: post)) s = recvLoop (sentLines (pre ++ post)) s := by
  intro pre
  induction pre with
  | nil =>
    intro post s
    rw [List.nil_append, List.nil_append, sentLines, ignorable_not_terminal l hig]
    simp only [Bool.false_eq_true, if_false]
    rw [recvLoop, ignorable_recvStep s l hig]
  | cons q pre ih =>
    intro post s
    by_cases hq : isTerminalLine q
    · rw [List.cons_append, List.cons_append, sentLines, sentLines, hq]
      rfl
    · rw [List.cons_append, List.cons_append, sentLines, sentLines]
      simp only [hq, Bool.false_eq_true, if_false]
      rw [recvLoop, recvLoop]
      cases hstep : recvStep s q with
      | mk s2 brk =>
        cases brk with
        | true => rfl
        | false => exact ih post s2

/-! ## The claims -/

/-- Helper for C6: deleting one ignorable line anywhere in the stream leaves
the whole call result unchanged. -/
theorem backend_query_stream_skip (l : String) (hig : ignorableLine l = true)
    (pre post : List String) :
    backend_query_stream (pre ++ l :: post) = backend_query_stream (pre ++ post) := by
  have h := recvLoop_skip_ignorable l hig pre post (⟨[], none, none⟩ : StreamState)
  simp only [backend_query_stream, streamFinal]
  rw [h]

/-- Claim C1: when the worker emits zero or more progress envelopes and then
one result envelope, the observable trace of the streaming call is exactly
the progress deliveries in emission order followed by the return of the
result envelope, so every delivery precedes the return and nothing follows
it. -/
theorem stream_progress_order_and_result (lines : List String) (ps : List JVal)
    (rl : String) (r : JVal)
    (hp : List.Forall₂
      (fun l p => decodeResponse l = some p ∧ typeField p = some "progress") lines ps)
    (hr : decodeResponse rl = some r) (hrt : typeField r = some "result") :
    streamTrace (lines ++ [rl])
      = ps.map StreamEvent.progress ++ [StreamEvent.ret (Except.ok r)] := by
  have h := streamFinal_progress_result lines ps rl r hp hr hrt
  simp [streamTrace, backend_query_stream, h]

/-- Witness for C1: three progress envelopes then a result envelope give the
three progress events in order and then the return of the result. -/
theorem stream_progress_order_and_result_witness :
    streamTrace ["\x7b\"type\":\"progress\",\"step\":1\x7d",
        "\x7b\"type\":\"progress\",\"step\":2\x7d",
        "\x7b\"type\":\"progress\",\"step\":3\x7d",
        "\x7b\"type\":\"result\",\"answer\":\"ok\"\x7d"]
      = [StreamEvent.progress (.jobj [("type", .jstr "progress"), ("step", .jnum 1)]),
        StreamEvent.progress (.jobj [("type", .jstr "progress"), ("step", .jnum 2)]),
        StreamEvent.progress (.jobj [("type", .jstr "progress"), ("step", .jnum 3)]),
        StreamEvent.ret (Except.ok (.jobj [("type", .jstr "result"), ("answer", .jstr "ok")]))] :=
  stream_progress_order_and_result
    ["\x7b\"type\":\"progress\",\"step\":1\x7d",
     "\x7b\"type\":\"progress\",\"step\":2\x7d",
     "\x7b\"type\":\"progress\",\"step\":3\x7d"]
    [.jobj [("type", .jstr "progress"), ("step", .jnum 1)],
     .jobj [("type", .jstr "progress"), ("step", .jnum 2)],
     .jobj [("type", .jstr "progress"), ("step", .jnum 3)]]
    "\x7b\"type\":\"result\",\"answer\":\"ok\"\x7d"
    (.jobj [("type", .jstr "result"), ("answer", .jstr "ok")])
    (List.Forall₂.cons ⟨rfl, rfl⟩ (List.Forall₂.cons ⟨rfl, rfl⟩
      (List.Forall₂.cons ⟨rfl, rfl⟩ List.Forall₂.nil)))
    rfl rfl

/-- Counterexample to claim C2 as stated: an error envelope without a
message field does not fail the streaming call with a generic default
message of its own; it leaves the error cell empty, and the call fails with
the no-result failure, the very outcome of a stream that dies with no
terminal envelope at all. -/
theorem stream_error_without_message_counterexample :
    backend_query_stream ["\x7b\"type\":\"error\"\x7d"] = ([], Except.error noResultMsg)
    ∧ backend_query_stream [] = ([], Except.error noResultMsg)
    ∧ noResultMsg = "backend stream did not return result" :=
  ⟨rfl, rfl, rfl⟩

/-- Claim C2 (amended): when the terminal envelope of a streaming call has
type error, the call fails with the worker-supplied message string when the
message field is a string; when the worker omitted the message, the error
cell stays empty and the call fails with the no-result failure. -/
theorem stream_error_outcome (pre : List String) (el : String) (v : JVal)
    (hpre : ∀ l ∈ pre, isTerminalLine l = false)
    (hd : decodeResponse el = some v) (ht : typeField v = some "error") :
    (backend_query_stream (pre ++ [el])).2
      = match (v.get "message").bind JVal.asStr with
        | some m => Except.error m
        | none => Except.error noResultMsg := by
  have h := streamFinal_error pre el v hpre hd ht
  cases hm : (v.get "message").bind JVal.asStr with
  | some m =>
    rw [hm] at h
    simp [backend_query_stream, h]
  | none =>
    rw [hm] at h
    simp [backend_query_stream, h]

/-- Witness for C2 (amended) at the spec boom example: an error envelope
carrying a message fails the call with that message. -/
theorem stream_error_outcome_witness :
    (backend_query_stream ["\x7b\"type\":\"error\",\"message\":\"boom\"\x7d"]).2
      = Except.error "boom" :=
  stream_error_outcome [] "\x7b\"type\":\"error\",\"message\":\"boom\"\x7d"
    (.jobj [("type", .jstr "error"), ("message", .jstr "boom")])
    (by intro l hl; exact absurd hl (List.not_mem_nil l))
    rfl rfl

/-- Counterexample to claim C3 as stated: the close handler does not access
the process handle independently of the exchange lock; its very first
operation is acquiring that lock, before any kill. -/
theorem close_handler_locks_counterexample :
    closeHandlerOps.head? = some BridgeOp.lockAcquire
    ∧ BridgeOp.lockAcquire ∈ closeHandlerOps :=
  ⟨rfl, by decide⟩

/-- Claim C3 (amended): the close handler kills the child only after
acquiring the same mutex that a synchronous call holds across its blocking
read, so in the race state where a call holds the lock and is blocked
reading while the worker stays silent, neither the close handler nor the
blocked read can make progress. -/
theorem close_handler_waits_for_exchange :
    closeHandlerOps.head? = some BridgeOp.lockAcquire
    ∧ BridgeOp.killChild ∈ closeHandlerOps.drop 1
    ∧ BridgeOp.readResponseLine ∈ backendRequestOps.drop 1
    ∧ closeCanProceed blockedExchangeState = false
    ∧ readCanReturn blockedExchangeState = false :=
  ⟨rfl, by decide, by decide, rfl, rfl⟩

/-- Claim C4: the synchronous call decodes the response line; a decoded
envelope whose type field is the string error fails the call with the
message of that envelope (defaulting when absent), and every other decoded
envelope is returned unchanged. -/
theorem backend_request_error_mapping (payload : JVal) (line : String) (v : JVal)
    (hd : decodeResponse line = some v) :
    (typeField v = some "error" →
      (backend_request payload line).2 = Except.error (errMessageOf v))
    ∧ (typeField v ≠ some "error" →
      (backend_request payload line).2 = Except.ok v) := by
  have hout : (backend_request payload line).2 = classifyResponse v := by
    show backendRequestOutcome line = classifyResponse v
    rw [backendRequestOutcome, hd]
  constructor
  · intro ht
    rw [hout, classifyResponse, ht]
    simp
  · intro hne
    rw [hout, classifyResponse]
    cases htv : typeField v with
    | none => rfl
    | some t =>
      have hts : ¬ t = "error" := fun hc => hne (htv.trans (by rw [hc]))
      simp [hts]

/-- Witness for C4 at the spec bad-talker example. -/
theorem backend_request_error_mapping_witness :
    (backend_request JVal.jnull
        "\x7b\"type\":\"error\",\"message\":\"bad talker\"\x7d").2
      = Except.error "bad talker" :=
  (backend_request_error_mapping JVal.jnull
    "\x7b\"type\":\"error\",\"message\":\"bad talker\"\x7d"
    (.jobj [("type", .jstr "error"), ("message", .jstr "bad talker")]) rfl).1 rfl

/-- Claim C5: a streaming call whose stream ends before any terminal
envelope fails with the no-result failure, and that failure differs from the
failure a worker-reported error envelope produces. -/
theorem stream_no_result_failure :
    (∀ lines : List String, (∀ l ∈ lines, isTerminalLine l = false) →
      (backend_query_stream lines).2 = Except.error noResultMsg)
    ∧ (backend_query_stream
        ["\x7b\"type\":\"progress\"\x7d",
         "\x7b\"type\":\"error\",\"message\":\"boom\"\x7d"]).2
        = Except.error "boom"
    ∧ (Except.error noResultMsg : Except String JVal) ≠ Except.error "boom" := by
  refine ⟨?_, rfl, ?_⟩
  · intro lines h
    have hf := streamFinal_noterm lines h
    simp [backend_query_stream, hf]
  · intro hc
    injection hc with h2
    exact absurd h2 (by decide)

/-- Witness for C5: a stream holding one progress line and one junk line and
no terminal envelope fails with the no-result message. -/
theorem stream_no_result_failure_witness :
    (backend_query_stream ["\x7b\"type\":\"progress\"\x7d", "junk"]).2
      = Except.error noResultMsg :=
  stream_no_result_failure.1 ["\x7b\"type\":\"progress\"\x7d", "junk"] (by decide)

/-- Claim C6: a line that is blank after trimming or undecodable is ignored
by the streaming call (removing it changes nothing observable), and a valid
result envelope after any such lines still makes the call succeed with that
result. -/
theorem stream_tolerates_malformed_lines :
    (∀ l : String, ignorableLine l = true → ∀ (pre post : List String),
      backend_query_stream (pre ++ l :: post) = backend_query_stream (pre ++ post))
    ∧ (∀ (junk : List String) (rl : String) (r : JVal),
      (∀ j ∈ junk, ignorableLine j = true) →
      decodeResponse rl = some r → typeField r = some "result" →
      backend_query_stream (junk ++ [rl]) = ([], Except.ok r)) := by
  constructor
  · exact backend_query_stream_skip
  · intro junk rl r hjunk hd ht
    induction junk with
    | nil =>
      have hf := streamFinal_progress_result [] [] rl r List.Forall₂.nil hd ht
      rw [List.nil_append] at hf
      rw [List.nil_append]
      simp [backend_query_stream, hf]
    | cons j js ih =>
      have hstep := backend_query_stream_skip j (hjunk j (List.mem_cons_self j js))
        [] (js ++ [rl])
      rw [List.nil_append, List.nil_append] at hstep
      rw [List.cons_append, hstep]
      exact ih (fun x hx => hjunk x (List.mem_cons_of_mem j hx))

/-- Witness for C6: one non-JSON line before a result envelope leaves the
call succeeding with that result. -/
theorem stream_tolerates_malformed_lines_witness :
    backend_query_stream ["not json", "\x7b\"type\":\"result\",\"a\":1\x7d"]
      = ([], Except.ok (.jobj [("type", .jstr "result"), ("a", .jnum 1)])) :=
  stream_tolerates_malformed_lines.2 ["not json"]
    "\x7b\"type\":\"result\",\"a\":1\x7d"
    (.jobj [("type", .jstr "result"), ("a", .jnum 1)])
    (by decide)
    rfl rfl

/-- Claim C7: on a zero-length read of the response line the synchronous
call fails; it never returns a success value on a closed stream. -/
theorem backend_request_eof_fails (payload : JVal) :
    ∃ e, (backend_request payload "").2 = Except.error e :=
  ⟨invalidJsonMsg, rfl⟩

/-- Claim C8: over any whole streaming call, at most one of the two
terminal slots is ever populated. -/
theorem stream_terminal_slots_exclusive (lines : List String) :
    ((streamFinal lines).result_cell.isSome
      && (streamFinal lines).error_cell.isSome) = false :=
  recvLoop_cells_exclusive (sentLines lines) ⟨[], none, none⟩ rfl rfl

/-- Claim C9: encoding a value to a request line and decoding that line
(trim, then JSON-parse) is the identity on the logical JSON value. -/
theorem encode_decode_roundtrip (v : JVal) :
    decodeResponse (encodeRequest v) = some v :=
  decodeResponse_encodeRequest v

/-- Claim C10: the serialized payload contains no raw newline, and the wire
message is exactly the serialization plus one trailing newline, so every
request occupies exactly one protocol line. -/
theorem request_wire_single_line (v : JVal) :
    (encodeRequest v).data.count '\n' = 0
    ∧ (requestWireLine v).data = (encodeRequest v).data ++ ['\n']
    ∧ (requestWireLine v).data.count '\n' = 1 := by
  have h0 : (renderJ v).count '\n' = 0 := List.count_eq_zero.mpr (renderJ_no_nl v)
  refine ⟨h0, rfl, ?_⟩
  show (renderJ v ++ ['\n']).count '\n' = 1
  rw [List.count_append, h0]
  rfl
